import Mathlib

/-!
Verification of the `final_project` concurrent file-statistics tool.

The development shallowly embeds the Rust sources:
  * `src/thread_pool.rs` — a resizable worker pool over a single FIFO
    mpsc channel carrying `NewJob`/`Terminate` messages;
  * `src/main.rs`       — the dispatcher loop, the shared status map and
    the cooperative cancellation flag;
  * `src/analyzer.rs`   — the per-file statistics function `analyze_file`.

Machine integers (`usize`, `u64`) are modelled as `Nat`: none of the
verified properties involve overflow.  The real channel interleaves the
consumption of messages across worker threads, but consumption order from
the single FIFO channel is the queue order, so dequeue/termination
behaviour is modelled by a sequential drain function over the log of sent
messages.
-/

namespace FinalProject

/-- The `Message` enum of `src/thread_pool.rs`: the FIFO channel carries
either a job payload (the boxed closure is abstracted to a payload of
type `α`) or a `Terminate` signal. -/
inductive Message (α : Type) where
  | newJob (j : α)
  | terminate
deriving DecidableEq

/-- The `ThreadPool` struct of `src/thread_pool.rs`.  `workers` is the
length of the `workers : Vec<Worker>` field (the number of live worker
handles); `sent` is the ordered log of every message sent into the
single mpsc channel, in FIFO order. -/
structure ThreadPool (α : Type) where
  workers : Nat
  sent : List (Message α)
deriving DecidableEq

/-- Models `ThreadPool::new(size)`: `assert!(size > 0)` is modelled by returning
`none` (the panic) when `size = 0`; otherwise `size` workers are spawned
and the channel starts empty. -/
def ThreadPool.new (α : Type) (size : Nat) : Option (ThreadPool α) :=
  if size = 0 then none else some { workers := size, sent := [] }

/-- Models `ThreadPool::execute(f)`: sends `Message::NewJob(f)` on the channel. -/
def ThreadPool.execute {α : Type} (p : ThreadPool α) (j : α) : ThreadPool α :=
  { p with sent := p.sent ++ [Message.newJob j] }

/-- Models `ThreadPool::resize(new_size)`: `assert!(new_size > 0)` is modelled by
`none` when `new_size = 0`.  Growing pushes `new_size - current` workers;
shrinking sends exactly `current - new_size` `Terminate` messages and then
pops and joins that many worker handles.  The arithmetic mirrors the
push/pop loops of the source rather than being simplified to `new_size`. -/
def ThreadPool.resize {α : Type} (p : ThreadPool α) (new_size : Nat) :
    Option (ThreadPool α) :=
  if new_size = 0 then none
  else if new_size > p.workers then
    some { p with workers := p.workers + (new_size - p.workers) }
  else if new_size < p.workers then
    some { workers := p.workers - (p.workers - new_size),
           sent := p.sent ++ List.replicate (p.workers - new_size) Message.terminate }
  else some p

/-- Models `ThreadPool::shutdown()`: sends one `Terminate` per live worker, then
pops and joins every worker handle, leaving the workers vector empty. -/
def ThreadPool.shutdown {α : Type} (p : ThreadPool α) : ThreadPool α :=
  { workers := 0, sent := p.sent ++ List.replicate p.workers Message.terminate }

/-- Models `impl Drop for ThreadPool { fn drop(&mut self) { self.shutdown(); } }` -/
def ThreadPool.drop {α : Type} (p : ThreadPool α) : ThreadPool α :=
  p.shutdown

/-- The dispatcher's submission loop viewed from the pool: one
`execute` call per job, in order (`for path in files { pool.execute(..) }`
in `src/main.rs`). -/
def submitJobs {α : Type} (p : ThreadPool α) (jobs : List α) : ThreadPool α :=
  jobs.foldl ThreadPool.execute p

/-- Drain semantics of the worker loop of `src/thread_pool.rs`: each
message of the single FIFO channel is claimed by exactly one live worker,
in queue order; a `NewJob` is executed (appended to the output list) and
the worker loops, a `Terminate` makes its receiver break out of the loop.
Returns (jobs executed in dequeue order, workers still live, messages
never consumed because no worker remained). -/
def processQueue {α : Type} : List (Message α) → Nat → List α × Nat × List (Message α)
  | q, 0 => ([], 0, q)
  | [], w + 1 => ([], w + 1, [])
  | Message.newJob j :: q, w + 1 =>
    let r := processQueue q (w + 1)
    (j :: r.1, r.2.1, r.2.2)
  | Message.terminate :: q, w + 1 => processQueue q w

theorem submitJobs_sent {α : Type} (jobs : List α) (p : ThreadPool α) :
    (submitJobs p jobs).sent = p.sent ++ jobs.map Message.newJob := by
  induction jobs generalizing p with
  | nil => simp [submitJobs]
  | cons j js ih =>
    simp [submitJobs] at ih ⊢
    rw [ih (p.execute j)]
    simp [ThreadPool.execute]

theorem submitJobs_workers {α : Type} (jobs : List α) (p : ThreadPool α) :
    (submitJobs p jobs).workers = p.workers := by
  induction jobs generalizing p with
  | nil => simp [submitJobs]
  | cons j js ih =>
    simp [submitJobs] at ih ⊢
    rw [ih (p.execute j)]
    simp [ThreadPool.execute]

theorem processQueue_jobs_first {α : Type} (jobs : List α) (r : List (Message α))
    (w : Nat) :
    processQueue (jobs.map Message.newJob ++ r) (w + 1) =
      ((jobs ++ (processQueue r (w + 1)).1, (processQueue r (w + 1)).2)) := by
  induction jobs with
  | nil => simp
  | cons j js ih => simp [processQueue, ih]

theorem processQueue_replicate_terminate {α : Type} (k : Nat) :
    processQueue (List.replicate k (Message.terminate : Message α)) k =
      ([], 0, []) := by
  induction k with
  | zero => simp [processQueue]
  | succ n ih => simpa [List.replicate_succ, processQueue] using ih

/-- Drain of `jobs ++ k Terminates` with `k` live workers, `k ≥ 1`: every
job is dequeued and executed exactly once, in order, every worker
terminates, and no message is left unconsumed. -/
theorem processQueue_drain {α : Type} (jobs : List α) (k : Nat) (h : 1 ≤ k) :
    processQueue (jobs.map Message.newJob ++
        List.replicate k (Message.terminate : Message α)) k = (jobs, 0, []) := by
  cases k with
  | zero => omega
  | succ n =>
    rw [processQueue_jobs_first, processQueue_replicate_terminate]
    simp

/-- Claim C1: for a pool of size `k ≥ 1` and any list of jobs submitted via
`execute` before `shutdown()`, the channel log is exactly the job messages
followed by `k` `Terminate` messages (Terminates are appended only after
all Job messages), and draining that FIFO log with `k` workers dequeues
and executes each job exactly once, in submission order, before any worker
processes a Terminate; all `k` workers then terminate (so `shutdown`'s
joins — and hence `shutdown()` itself — return only after all jobs have
completed) and no message is left in the channel. -/
theorem C1_shutdown_drains (k : Nat) (jobs : List Nat) (h : 1 ≤ k)
    (p : ThreadPool Nat) (hp : ThreadPool.new Nat k = some p) :
    ((submitJobs p jobs).shutdown).sent =
        jobs.map Message.newJob ++ List.replicate k Message.terminate ∧
    processQueue ((submitJobs p jobs).shutdown).sent k = (jobs, 0, []) := by
  have hk : k ≠ 0 := by omega
  have hp' : p = { workers := k, sent := [] } := by
    simp [ThreadPool.new, hk] at hp
    exact hp.symm
  subst hp'
  have hsent : ((submitJobs ({ workers := k, sent := [] } : ThreadPool Nat) jobs).shutdown).sent =
      jobs.map Message.newJob ++ List.replicate k Message.terminate := by
    simp [ThreadPool.shutdown, submitJobs_sent, submitJobs_workers]
  refine ⟨hsent, ?_⟩
  rw [hsent]
  exact processQueue_drain jobs k h

theorem C1_shutdown_drains_witness :
    ((submitJobs ({ workers := 2, sent := [] } : ThreadPool Nat) [10, 20, 30]).shutdown).sent =
        [10, 20, 30].map Message.newJob ++ List.replicate 2 Message.terminate ∧
    processQueue ((submitJobs ({ workers := 2, sent := [] } : ThreadPool Nat)
        [10, 20, 30]).shutdown).sent 2 = ([10, 20, 30], 0, []) :=
  C1_shutdown_drains 2 [10, 20, 30] (by decide)
    ({ workers := 2, sent := [] } : ThreadPool Nat) rfl

/-- Claim C4: for every pool state and every resize target `k ≥ 1`,
`resize(k)` succeeds, the live worker count afterwards is exactly `k`, and
exactly `current - k` Terminate messages are appended to the channel
(zero when growing or unchanged).  Generality over the pool state covers
every sequence of grow/shrink calls. -/
theorem C4_resize_worker_count (p : ThreadPool Nat) (k : Nat) (h : 1 ≤ k) :
    ∃ p', p.resize k = some p' ∧ p'.workers = k ∧
      p'.sent = p.sent ++
        List.replicate (p.workers - k) (Message.terminate : Message Nat) := by
  have hk : k ≠ 0 := by omega
  rcases Nat.lt_trichotomy p.workers k with hlt | heq | hgt
  · refine ⟨{ p with workers := p.workers + (k - p.workers) }, ?_, ?_, ?_⟩
    · simp [ThreadPool.resize, hk, hlt]
    · show p.workers + (k - p.workers) = k
      omega
    · have : p.workers - k = 0 := by omega
      simp [this]
  · refine ⟨p, ?_, heq, ?_⟩
    · simp [ThreadPool.resize, hk, heq]
    · have : p.workers - k = 0 := by omega
      simp [this]
  · have h1 : ¬ k > p.workers := by omega
    refine ⟨{ workers := p.workers - (p.workers - k),
              sent := p.sent ++ List.replicate (p.workers - k) Message.terminate },
      ?_, ?_, rfl⟩
    · simp [ThreadPool.resize, hk, h1, hgt]
    · show p.workers - (p.workers - k) = k
      omega

theorem C4_resize_worker_count_witness :
    ∃ p', ({ workers := 5, sent := [] } : ThreadPool Nat).resize 2 = some p' ∧
      p'.workers = 2 ∧
      p'.sent = ([] : List (Message Nat)) ++
        List.replicate (5 - 2) (Message.terminate : Message Nat) :=
  C4_resize_worker_count ({ workers := 5, sent := [] } : ThreadPool Nat) 2 (by decide)

/-- Claim C8: `new(0)` and `resize(0)` hit the `assert!` and fail fatally
(modelled as `none`); under the precondition `size ≥ 1` (resp.
`new_size ≥ 1`) the assertion branch is unreachable and both operations
complete normally (`isSome`). -/
theorem C8_zero_size_asserts :
    ThreadPool.new Nat 0 = none ∧
    (∀ p : ThreadPool Nat, p.resize 0 = none) ∧
    (∀ size : Nat, 1 ≤ size → (ThreadPool.new Nat size).isSome = true) ∧
    (∀ (p : ThreadPool Nat) (k : Nat), 1 ≤ k → (p.resize k).isSome = true) := by
  refine ⟨rfl, fun p => rfl, fun size hs => ?_, fun p k hk => ?_⟩
  · have : size ≠ 0 := by omega
    simp [ThreadPool.new, this]
  · have hk0 : k ≠ 0 := by omega
    rcases C4_resize_worker_count p k hk with ⟨p', hp', _⟩
    simp [hp']

theorem C8_zero_size_asserts_witness :
    (ThreadPool.new Nat 3).isSome = true ∧
    (({ workers := 3, sent := [] } : ThreadPool Nat).resize 1).isSome = true :=
  ⟨C8_zero_size_asserts.2.2.1 3 (by decide),
   C8_zero_size_asserts.2.2.2 ({ workers := 3, sent := [] } : ThreadPool Nat) 1 (by decide)⟩

/-- Claim C10: dropping a `ThreadPool` invokes `shutdown` (the `Drop` impl
is literally `self.shutdown()`), so every job submitted before the pool
is dropped is drained and executed before the drop completes; and
dropping a pool whose workers have already been joined (workers vector
empty) is a safe no-op — shutdown sends zero Terminates and pops nothing,
hence shutdown (and drop) is idempotent. -/
theorem C10_drop_invokes_shutdown (k : Nat) (jobs : List Nat) (h : 1 ≤ k)
    (p : ThreadPool Nat) (hp : ThreadPool.new Nat k = some p) :
    (∀ q : ThreadPool Nat, q.drop = q.shutdown) ∧
    (∀ q : ThreadPool Nat, q.workers = 0 → q.drop = q) ∧
    (∀ q : ThreadPool Nat, q.drop.drop = q.drop) ∧
    processQueue ((submitJobs p jobs).drop).sent k = (jobs, 0, []) := by
  have hk : k ≠ 0 := by omega
  have hp' : p = { workers := k, sent := [] } := by
    simp [ThreadPool.new, hk] at hp
    exact hp.symm
  subst hp'
  refine ⟨fun q => rfl, ?_, ?_, ?_⟩
  · intro q hq
    simp [ThreadPool.drop, ThreadPool.shutdown, hq]
    exact (ThreadPool.mk.injEq _ _ _ _).mpr ⟨hq.symm, rfl⟩
  · intro q
    simp [ThreadPool.drop, ThreadPool.shutdown]
  · have hsent : ((submitJobs ({ workers := k, sent := [] } : ThreadPool Nat) jobs).drop).sent =
        jobs.map Message.newJob ++ List.replicate k Message.terminate := by
      simp [ThreadPool.drop, ThreadPool.shutdown, submitJobs_sent, submitJobs_workers]
    rw [hsent]
    exact processQueue_drain jobs k h

theorem C10_drop_invokes_shutdown_witness :
    processQueue ((submitJobs ({ workers := 1, sent := [] } : ThreadPool Nat) [7]).drop).sent 1 =
      ([7], 0, []) :=
  (C10_drop_invokes_shutdown 1 [7] (by decide)
    ({ workers := 1, sent := [] } : ThreadPool Nat) rfl).2.2.2

/-- The `Status` enum of `src/main.rs`: the lifecycle state of one
submitted file path in the shared status map. -/
inductive Status where
  | queued
  | running
  | done
  | error
  | canceled
deriving DecidableEq

/-- The `status_map : HashMap<String, Status>` of `src/main.rs`, modelled
as an association list with at most one entry per key.  Only the
key-to-value mapping is observable in the source (counts and lookups), so
the list order is irrelevant to every verified property. -/
abbrev StatusMap := List (String × Status)

/-- Models `HashMap::insert`: replace the value when the key is present,
otherwise add a fresh entry. -/
def insertStatus : StatusMap → String → Status → StatusMap
  | [], k, v => [(k, v)]
  | kv :: rest, k, v =>
    if kv.1 = k then (k, v) :: rest else kv :: insertStatus rest k v

/-- Whether a key is present in the map. -/
def hasKey (m : StatusMap) (k : String) : Bool :=
  m.any (fun kv => decide (kv.1 = k))

/-- The initialization loop of `src/main.rs`
(`for p in &files { sm.insert(p.display().to_string(), Status::Queued); }`),
starting from map `m` (the empty map in the program). -/
def initStatusMap : List String → StatusMap → StatusMap
  | [], m => m
  | p :: ps, m => initStatusMap ps (insertStatus m p Status.queued)

/-- The dispatcher's bulk-cancel sweep of `src/main.rs`:
`for (_k, v) in sm.iter_mut() { if matches!(*v, Queued) { *v = Canceled; } }`. -/
def sweepQueued (m : StatusMap) : StatusMap :=
  m.map (fun kv => if kv.2 = Status.queued then (kv.1, Status.canceled) else kv)

/-- Models `sm.values().filter(|s| matches!(s, <target>)).count()` of `src/main.rs`. -/
def countStatus (m : StatusMap) (s : Status) : Nat :=
  m.countP (fun kv => decide (kv.2 = s))

/-- The sum of the per-state counts over all five states. -/
def statusSum (m : StatusMap) : Nat :=
  countStatus m Status.queued + countStatus m Status.running +
    countStatus m Status.done + countStatus m Status.error +
    countStatus m Status.canceled

/-- The dispatcher's submission loop of `src/main.rs`: for each discovered
path, load the cancellation flag (`flag i` is the value the `i`-th SeqCst
load observes); if set, run the bulk-cancel sweep and stop submitting;
otherwise submit a job capturing the path.  Returns the status map as the
loop leaves it and the list of submitted paths, in order. -/
def dispatchLoop (flag : Nat → Bool) : Nat → List String → StatusMap → StatusMap × List String
  | _, [], m => (m, [])
  | i, p :: ps, m =>
    if flag i then (sweepQueued m, [])
    else
      let r := dispatchLoop flag (i + 1) ps m
      (r.1, p :: r.2)

theorem statusSum_eq_length (m : StatusMap) : statusSum m = m.length := by
  induction m with
  | nil => simp [statusSum, countStatus]
  | cons kv rest ih =>
    obtain ⟨k, v⟩ := kv
    cases v <;>
      simp [statusSum, countStatus, List.countP_cons] at ih ⊢ <;>
      omega

theorem insertStatus_length_of_hasKey (m : StatusMap) (k : String) (v : Status)
    (h : hasKey m k = true) : (insertStatus m k v).length = m.length := by
  induction m with
  | nil => simp [hasKey] at h
  | cons kv rest ih =>
    by_cases hk : kv.1 = k
    · simp [insertStatus, hk]
    · have h' : hasKey rest k = true := by
        simp [hasKey] at h ⊢
        rcases h with h | h
        · exact absurd h hk
        · exact h
      simp [insertStatus, hk, ih h']

theorem insertStatus_length_of_not_hasKey (m : StatusMap) (k : String) (v : Status)
    (h : hasKey m k = false) : (insertStatus m k v).length = m.length + 1 := by
  induction m with
  | nil => simp [insertStatus]
  | cons kv rest ih =>
    simp [hasKey] at h
    obtain ⟨h1, h2⟩ := h
    have h' : hasKey rest k = false := by
      simp [hasKey]
      exact h2
    simp [insertStatus, h1, ih h']

theorem hasKey_insertStatus (m : StatusMap) (k p : String) (v : Status) :
    hasKey (insertStatus m k v) p = (hasKey m p || decide (k = p)) := by
  induction m with
  | nil => simp [insertStatus, hasKey]
  | cons kv rest ih =>
    by_cases hk : kv.1 = k
    · by_cases hp : k = p
      · subst hp
        simp [insertStatus, hk, hasKey]
      · simp only [insertStatus, hk, if_true, hasKey, List.any_cons]
        simp [hp, hk]
    · simp [insertStatus, hk, hasKey] at ih ⊢
      rw [ih]
      by_cases hkvp : kv.1 = p <;> simp [hkvp, Bool.or_assoc, Bool.or_comm]

theorem initStatusMap_length_nodup (paths : List String) (m : StatusMap)
    (hfresh : ∀ p ∈ paths, hasKey m p = false) (hnd : paths.Nodup) :
    (initStatusMap paths m).length = m.length + paths.length := by
  induction paths generalizing m with
  | nil => simp [initStatusMap]
  | cons p ps ih =>
    have hp : hasKey m p = false := hfresh p (by simp)
    have hnd' : ps.Nodup := hnd.of_cons
    have hfresh' : ∀ q ∈ ps, hasKey (insertStatus m p Status.queued) q = false := by
      intro q hq
      rw [hasKey_insertStatus]
      have hq1 : hasKey m q = false := hfresh q (by simp [hq])
      have hq2 : p ≠ q := by
        intro hpq
        subst hpq
        exact (List.nodup_cons.mp hnd).1 hq
      simp [hq1, hq2]
    rw [initStatusMap, ih (insertStatus m p Status.queued) hfresh' hnd',
        insertStatus_length_of_not_hasKey m p Status.queued hp]
    simp [List.length_cons]
    omega

/-- Claim C3, as stated, fails on a discovered-file list that contains the
same path twice: the status map is keyed by path, so the two occurrences
collapse to one entry and the five state counts sum to 1 while the total
number of discovered files is 2. -/
theorem C3_counterexample :
    statusSum (initStatusMap ["a", "a"] []) = 1 ∧
    (["a", "a"] : List String).length = 2 := by
  constructor
  · rfl
  · rfl

/-- Claim C3, amended: at every observation point the five state counts
sum to the number of entries of the status map, i.e. to the number of
DISTINCT discovered file paths — the sum is invariant under every write
the program performs after initialization (worker inserts on an existing
key, and the bulk-cancel sweep), and it equals the total number of
discovered files whenever the discovered list contains no duplicate
path. -/
theorem C3_state_count_sum :
    (∀ m : StatusMap, statusSum m = m.length) ∧
    (∀ (paths : List String), paths.Nodup →
        statusSum (initStatusMap paths []) = paths.length) ∧
    (∀ (m : StatusMap) (k : String) (v : Status), hasKey m k = true →
        statusSum (insertStatus m k v) = statusSum m) ∧
    (∀ m : StatusMap, statusSum (sweepQueued m) = statusSum m) := by
  refine ⟨statusSum_eq_length, ?_, ?_, ?_⟩
  · intro paths hnd
    rw [statusSum_eq_length,
        initStatusMap_length_nodup paths [] (by intro p _; rfl) hnd]
    simp
  · intro m k v h
    rw [statusSum_eq_length, statusSum_eq_length,
        insertStatus_length_of_hasKey m k v h]
  · intro m
    rw [statusSum_eq_length, statusSum_eq_length]
    simp [sweepQueued]

theorem C3_state_count_sum_witness :
    statusSum (initStatusMap ["a", "b"] []) = (["a", "b"] : List String).length ∧
    statusSum (insertStatus [("a", Status.queued)] "a" Status.running) =
      statusSum [("a", Status.queued)] :=
  ⟨C3_state_count_sum.2.1 ["a", "b"] (by decide),
   C3_state_count_sum.2.2.1 [("a", Status.queued)] "a" Status.running (by decide)⟩

theorem initStatusMap_values_queued (paths : List String) (m : StatusMap)
    (hm : ∀ kv ∈ m, kv.2 = Status.queued) :
    ∀ kv ∈ initStatusMap paths m, kv.2 = Status.queued := by
  induction paths generalizing m with
  | nil => simpa [initStatusMap] using hm
  | cons p ps ih =>
    rw [initStatusMap]
    refine ih (insertStatus m p Status.queued) ?_
    intro kv hkv
    induction m with
    | nil =>
      simp [insertStatus] at hkv
      simp [hkv]
    | cons kv' rest ih' =>
      by_cases hk : kv'.1 = p
      · simp [insertStatus, hk] at hkv
        rcases hkv with hkv | hkv
        · simp [hkv]
        · exact hm kv (by simp [hkv])
      · simp [insertStatus, hk] at hkv
        rcases hkv with hkv | hkv
        · exact hm kv (by simp [hkv])
        · exact ih' (fun kv h => hm kv (by simp at h ⊢; tauto)) hkv

theorem sweepQueued_values_canceled (m : StatusMap)
    (hm : ∀ kv ∈ m, kv.2 = Status.queued) :
    ∀ kv ∈ sweepQueued m, kv.2 = Status.canceled := by
  intro kv hkv
  simp [sweepQueued] at hkv
  obtain ⟨a, b, hab, hif⟩ := hkv
  have : b = Status.queued := hm (a, b) hab
  subst this
  simp at hif
  simp [← hif]

/-- Claim C5: if the cancellation flag is set before the dispatcher
submits any job (every load of the flag observes `true`), then the
submission loop submits zero jobs, the drain of the resulting channel log
executes zero job bodies (so `analyze` is never called and no result is
collected), and every discovered path ends the run in state `Canceled`. -/
theorem C5_cancel_before_submission (flag : Nat → Bool) (paths : List String)
    (h : ∀ i, flag i = true) :
    (dispatchLoop flag 0 paths (initStatusMap paths [])).2 = [] ∧
    (∀ kv ∈ (dispatchLoop flag 0 paths (initStatusMap paths [])).1,
        kv.2 = Status.canceled) ∧
    (∀ k : Nat, processQueue
        (((submitJobs ({ workers := k, sent := [] } : ThreadPool Nat)
            ((dispatchLoop flag 0 paths (initStatusMap paths [])).2.map
              (fun _ => 0))).shutdown).sent) k = ([], 0, [])) := by
  have hall : ∀ kv ∈ (initStatusMap paths []), kv.2 = Status.queued :=
    initStatusMap_values_queued paths [] (by intro kv h; simp at h)
  have hloop : dispatchLoop flag 0 paths (initStatusMap paths []) =
      (match paths with
       | [] => (initStatusMap [] [], [])
       | _ :: _ => (sweepQueued (initStatusMap paths []), [])) := by
    cases paths with
    | nil => rfl
    | cons p ps => simp [dispatchLoop, h 0]
  cases paths with
  | nil =>
    rw [hloop]
    refine ⟨rfl, ?_, ?_⟩
    · intro kv hkv
      simp [initStatusMap] at hkv
    · intro k
      cases k with
      | zero => rfl
      | succ n =>
        simp [submitJobs, ThreadPool.shutdown]
        exact processQueue_replicate_terminate (n + 1)
  | cons p ps =>
    rw [hloop]
    refine ⟨rfl, ?_, ?_⟩
    · exact sweepQueued_values_canceled _ hall
    · intro k
      cases k with
      | zero => rfl
      | succ n =>
        simp [submitJobs, ThreadPool.shutdown]
        exact processQueue_replicate_terminate (n + 1)

theorem C5_cancel_before_submission_witness :
    (dispatchLoop (fun _ => true) 0 ["a", "b"] (initStatusMap ["a", "b"] [])).2 = [] ∧
    (∀ kv ∈ (dispatchLoop (fun _ => true) 0 ["a", "b"]
        (initStatusMap ["a", "b"] [])).1, kv.2 = Status.canceled) :=
  ⟨(C5_cancel_before_submission (fun _ => true) ["a", "b"] (fun _ => rfl)).1,
   (C5_cancel_before_submission (fun _ => true) ["a", "b"] (fun _ => rfl)).2.1⟩

/-- Program counter of the worker-job closure of `src/main.rs` for one
fixed path: the closure loads the cancellation flag; on `true` it writes
`Canceled` and returns, on `false` it writes `Running`, runs `analyze`,
and finally writes `Done` or `Error`. -/
inductive WorkerPC where
  | start
  | checkedTrue
  | checkedFalse
  | wroteRunning
  | finished
deriving DecidableEq

/-- Joint state, for one fixed submitted path, of the cancellation flag,
the path's entry in the status map, and the worker closure for that path.
Each map access in the source holds the mutex, so each write is one
atomic step; the flag load and the subsequent map write are separate
steps, exactly as in the source. -/
structure CState where
  flag : Bool
  status : Status
  pc : WorkerPC
deriving DecidableEq

/-- Interleaved small-step semantics for one fixed path: the input
listener's one-way `store(true)`; the dispatcher's bulk-cancel sweep
(which runs only after loading `flag = true` and rewrites the entry only
when it is `Queued`); and the worker closure's own steps (flag load, then
the unconditional map writes of the source). -/
inductive CStep : CState → CState → Prop where
  | setFlag (st : Status) (pc : WorkerPC) :
      CStep ⟨false, st, pc⟩ ⟨true, st, pc⟩
  | sweep (pc : WorkerPC) :
      CStep ⟨true, Status.queued, pc⟩ ⟨true, Status.canceled, pc⟩
  | checkTrue (st : Status) :
      CStep ⟨true, st, WorkerPC.start⟩ ⟨true, st, WorkerPC.checkedTrue⟩
  | checkFalse (st : Status) :
      CStep ⟨false, st, WorkerPC.start⟩ ⟨false, st, WorkerPC.checkedFalse⟩
  | writeCanceled (f : Bool) (st : Status) :
      CStep ⟨f, st, WorkerPC.checkedTrue⟩ ⟨f, Status.canceled, WorkerPC.finished⟩
  | writeRunning (f : Bool) (st : Status) :
      CStep ⟨f, st, WorkerPC.checkedFalse⟩ ⟨f, Status.running, WorkerPC.wroteRunning⟩
  | writeDone (f : Bool) (st : Status) :
      CStep ⟨f, st, WorkerPC.wroteRunning⟩ ⟨f, Status.done, WorkerPC.finished⟩
  | writeError (f : Bool) (st : Status) :
      CStep ⟨f, st, WorkerPC.wroteRunning⟩ ⟨f, Status.error, WorkerPC.finished⟩

/-- Initial state for a submitted path: flag unset
(`AtomicBool::new(false)`), status `Queued` (the initialization loop),
worker closure not yet started. -/
def initCState : CState :=
  ⟨false, Status.queued, WorkerPC.start⟩

/-- States reachable by interleaving the listener, the sweep and the
worker for one path. -/
def CReach (s : CState) : Prop :=
  Relation.ReflTransGen CStep initCState s

/-- Structural invariant tying the path's status to the worker's
progress. -/
def CInv (s : CState) : Prop :=
  (s.pc = WorkerPC.wroteRunning ↔ s.status = Status.running) ∧
  ((s.status = Status.done ∨ s.status = Status.error) → s.pc = WorkerPC.finished)

theorem CInv_init : CInv initCState := by
  simp [CInv, initCState]

theorem CInv_step (s s' : CState) (h : CStep s s') (hinv : CInv s) : CInv s' := by
  cases h <;> simp_all [CInv]

theorem CInv_reach (s : CState) (h : CReach s) : CInv s := by
  induction h with
  | refl => exact CInv_init
  | tail _ hstep ih => exact CInv_step _ _ hstep ih

/-- Claim C2, as stated, is false: there is a legal interleaving of the
dispatcher's bulk-cancel sweep and the worker closure under which a path
whose status is `Canceled` is later written `Running` (and then `Done`).
The worker loads the flag (observing `false`), the listener then sets it,
the dispatcher sweeps the still-`Queued` entry to `Canceled`, and the
worker — which checks the flag, not the status, before writing —
overwrites `Canceled` with `Running`. -/
theorem C2_counterexample :
    CReach ⟨true, Status.canceled, WorkerPC.checkedFalse⟩ ∧
    CStep ⟨true, Status.canceled, WorkerPC.checkedFalse⟩
      ⟨true, Status.running, WorkerPC.wroteRunning⟩ ∧
    CStep ⟨true, Status.running, WorkerPC.wroteRunning⟩
      ⟨true, Status.done, WorkerPC.finished⟩ := by
  refine ⟨?_, CStep.writeRunning true Status.canceled,
    CStep.writeDone true Status.running⟩
  have h1 : CStep initCState ⟨false, Status.queued, WorkerPC.checkedFalse⟩ :=
    CStep.checkFalse Status.queued
  have h2 : CStep ⟨false, Status.queued, WorkerPC.checkedFalse⟩
      ⟨true, Status.queued, WorkerPC.checkedFalse⟩ :=
    CStep.setFlag Status.queued WorkerPC.checkedFalse
  have h3 : CStep ⟨true, Status.queued, WorkerPC.checkedFalse⟩
      ⟨true, Status.canceled, WorkerPC.checkedFalse⟩ :=
    CStep.sweep WorkerPC.checkedFalse
  exact Relation.ReflTransGen.tail
    (Relation.ReflTransGen.tail
      (Relation.ReflTransGen.tail Relation.ReflTransGen.refl h1) h2) h3

/-- Claim C2, amended: along every interleaving, a path whose status is
`Running` is only ever re-written `Done` or `Error` (never `Canceled`),
and `Done`/`Error` are terminal; however a path whose status is
`Canceled` (written by the bulk-cancel sweep) can subsequently be
written `Running` — exactly when the worker's cancellation check loaded
the flag before it was set (worker at `checkedFalse`) — so the status
sequence Queued, Canceled, Running, Done/Error is also reachable. -/
theorem C2_status_monotonic (s s' : CState) (h1 : CReach s) (h2 : CStep s s') :
    (s.status = Status.running →
      s'.status = Status.running ∨ s'.status = Status.done ∨
        s'.status = Status.error) ∧
    (s.status = Status.done → s'.status = Status.done) ∧
    (s.status = Status.error → s'.status = Status.error) ∧
    (s.status = Status.canceled →
      s'.status = Status.canceled ∨
        (s'.status = Status.running ∧ s.pc = WorkerPC.checkedFalse)) := by
  have hinv := CInv_reach s h1
  cases h2 <;> simp_all [CInv]

theorem C2_status_monotonic_witness :
    ((⟨false, Status.running, WorkerPC.wroteRunning⟩ : CState).status = Status.running →
      (⟨false, Status.done, WorkerPC.finished⟩ : CState).status = Status.running ∨
        (⟨false, Status.done, WorkerPC.finished⟩ : CState).status = Status.done ∨
        (⟨false, Status.done, WorkerPC.finished⟩ : CState).status = Status.error) ∧
    ((⟨false, Status.running, WorkerPC.wroteRunning⟩ : CState).status = Status.done →
      (⟨false, Status.done, WorkerPC.finished⟩ : CState).status = Status.done) ∧
    ((⟨false, Status.running, WorkerPC.wroteRunning⟩ : CState).status = Status.error →
      (⟨false, Status.done, WorkerPC.finished⟩ : CState).status = Status.error) ∧
    ((⟨false, Status.running, WorkerPC.wroteRunning⟩ : CState).status = Status.canceled →
      (⟨false, Status.done, WorkerPC.finished⟩ : CState).status = Status.canceled ∨
        ((⟨false, Status.done, WorkerPC.finished⟩ : CState).status = Status.running ∧
          (⟨false, Status.running, WorkerPC.wroteRunning⟩ : CState).pc =
            WorkerPC.checkedFalse)) :=
  C2_status_monotonic ⟨false, Status.running, WorkerPC.wroteRunning⟩
    ⟨false, Status.done, WorkerPC.finished⟩
    (Relation.ReflTransGen.tail
      (Relation.ReflTransGen.tail Relation.ReflTransGen.refl
        (CStep.checkFalse Status.queued))
      (CStep.writeRunning false Status.queued))
    (CStep.writeDone false Status.running)

/-- The `ProcessingError` enum of `src/analyzer.rs`. -/
inductive ProcessingError where
  | ioError (msg : String)
  | other (msg : String)
deriving DecidableEq

/-- The `FileStats` struct of `src/analyzer.rs`.  The
`char_frequencies : HashMap<char, usize>` histogram (each processed
character increments its entry) is modelled as the multiset of counted
characters: the histogram entry of `c` is `Multiset.count c`, and the
`Default` empty map is the empty multiset `0`. -/
structure FileStats where
  word_count : Nat
  line_count : Nat
  char_frequencies : Multiset Char
  size_bytes : Nat
deriving DecidableEq

/-- The `FileAnalysis` struct of `src/analyzer.rs`.  The
`processing_time : Duration` field is wall-clock time and is not
modelled. -/
structure FileAnalysis where
  filename : String
  full_path : String
  stats : FileStats
  errors : List ProcessingError
deriving DecidableEq

/-- Models `line.split_whitespace().count()`: the number of maximal nonempty
runs of non-whitespace characters.  `inWord` records whether the
previous character was part of a word. -/
def countWordsAux : List Char → Bool → Nat
  | [], _ => 0
  | c :: rest, inWord =>
    if c.isWhitespace then countWordsAux rest false
    else (if inWord then 0 else 1) + countWordsAux rest true

def countWords (line : List Char) : Nat :=
  countWordsAux line false

/-- The `for line_result in reader.lines()` loop of `analyze_file`: an
`Ok` line bumps `line_count`, adds its word count and feeds every one of
its characters to the histogram; the first `Err` pushes a structured
error and breaks out of the loop. -/
def processLines (fullPath : String) :
    List (Except String (List Char)) → FileStats → List ProcessingError →
      FileStats × List ProcessingError
  | [], stats, errs => (stats, errs)
  | Except.ok line :: rest, stats, errs =>
    processLines fullPath rest
      { stats with
          line_count := stats.line_count + 1,
          word_count := stats.word_count + countWords line,
          char_frequencies := stats.char_frequencies + (line : Multiset Char) }
      errs
  | Except.error e :: _, stats, errs =>
    (stats,
      errs ++ [ProcessingError.ioError
        ("line read error on " ++ fullPath ++ ": " ++ e)])

/-- Models `path.file_name()` (the last path component), `to_string_lossy`,
`unwrap_or_default`. -/
def fileNameOf (path : String) : String :=
  (path.splitOn "/").getLastD ""

/-- Models `analyze_file` of `src/analyzer.rs`, parameterized by the outcome of
the two filesystem calls it makes: `fs::metadata(path).map(|m| m.len())`
and `fs::File::open(path)` followed by `reader.lines()` (each yielded
item either a line, with its terminator already stripped, or an I/O
error).  A metadata failure records an error and leaves
`size_bytes = 0`; an open failure records an error and skips the line
loop; the function always returns a record and never panics. -/
def analyze_file (path : String) (metadataRes : Except String Nat)
    (openRes : Except String (List (Except String (List Char)))) : FileAnalysis :=
  let full_path := path
  let filename := fileNameOf path
  let errs0 : List ProcessingError :=
    match metadataRes with
    | Except.ok _ => []
    | Except.error e =>
      [ProcessingError.ioError ("metadata error on " ++ full_path ++ ": " ++ e)]
  let stats0 : FileStats :=
    { word_count := 0, line_count := 0, char_frequencies := 0,
      size_bytes := match metadataRes with
                    | Except.ok n => n
                    | Except.error _ => 0 }
  match openRes with
  | Except.ok lineResults =>
    let r := processLines full_path lineResults stats0 errs0
    { filename := filename, full_path := full_path, stats := r.1, errors := r.2 }
  | Except.error e =>
    { filename := filename, full_path := full_path, stats := stats0,
      errors := errs0 ++
        [ProcessingError.ioError ("open error on " ++ full_path ++ ": " ++ e)] }

/-- A file as the filesystem presents it to `analyze_file`: its metadata
length and the stream of `reader.lines()` results. -/
structure FsFile where
  size : Nat
  lineResults : List (Except String (List Char))

/-- Runs `analyze_file` against a filesystem `fs`: a present path serves
both `fs::metadata` and `fs::File::open`; an absent path makes both
calls fail with the OS error. -/
def analyzeFileFs (fs : String → Option FsFile) (path : String) : FileAnalysis :=
  match fs path with
  | some f => analyze_file path (Except.ok f.size) (Except.ok f.lineResults)
  | none =>
    analyze_file path
      (Except.error "No such file or directory (os error 2)")
      (Except.error "No such file or directory (os error 2)")

/-- The statistics determined by a list of successfully read lines and a
metadata length. -/
def statsOfLines (lines : List (List Char)) (sz : Nat) : FileStats :=
  { word_count := (lines.map countWords).sum,
    line_count := lines.length,
    char_frequencies := (lines.flatten : Multiset Char),
    size_bytes := sz }

theorem processLines_ok (fp : String) (lines : List (List Char))
    (stats : FileStats) (errs : List ProcessingError) :
    processLines fp (lines.map Except.ok) stats errs =
      ({ word_count := stats.word_count + (lines.map countWords).sum,
         line_count := stats.line_count + lines.length,
         char_frequencies := stats.char_frequencies + (lines.flatten : Multiset Char),
         size_bytes := stats.size_bytes }, errs) := by
  induction lines generalizing stats with
  | nil => simp [processLines]
  | cons l ls ih =>
    simp only [List.map_cons, processLines, ih]
    simp [add_assoc]
    omega

theorem processLines_error (fp : String) (lines : List (List Char))
    (e : String) (rest : List (Except String (List Char)))
    (stats : FileStats) (errs : List ProcessingError) :
    processLines fp (lines.map Except.ok ++ Except.error e :: rest) stats errs =
      ({ word_count := stats.word_count + (lines.map countWords).sum,
         line_count := stats.line_count + lines.length,
         char_frequencies := stats.char_frequencies + (lines.flatten : Multiset Char),
         size_bytes := stats.size_bytes },
       errs ++ [ProcessingError.ioError
         ("line read error on " ++ fp ++ ": " ++ e)]) := by
  induction lines generalizing stats with
  | nil => simp [processLines]
  | cons l ls ih =>
    simp only [List.map_cons, List.cons_append, processLines, List.append_eq]
    rw [ih]
    simp [add_assoc]
    omega

/-- Claim C6: when the line stream has its first read error at position
`i` (here: after the `i` successfully read lines `lines`), `analyze_file`
stops there — the returned statistics are exactly those of the lines
before the error (partial counts are reported), the error list is
non-empty, and the lines after the error contribute nothing (the result
does not depend on them at all). -/
theorem C6_stops_at_first_read_error (path : String) (sz : Nat)
    (lines : List (List Char)) (e : String)
    (rest : List (Except String (List Char))) :
    (analyze_file path (Except.ok sz)
        (Except.ok (lines.map Except.ok ++ Except.error e :: rest))).stats =
      statsOfLines lines sz ∧
    (analyze_file path (Except.ok sz)
        (Except.ok (lines.map Except.ok ++ Except.error e :: rest))).errors ≠ [] ∧
    analyze_file path (Except.ok sz)
        (Except.ok (lines.map Except.ok ++ Except.error e :: rest)) =
      analyze_file path (Except.ok sz)
        (Except.ok (lines.map Except.ok ++ [Except.error e])) := by
  refine ⟨?_, ?_, ?_⟩
  · simp [analyze_file, processLines_error, statsOfLines]
  · simp [analyze_file, processLines_error]
  · simp [analyze_file, processLines_error]

theorem C6_stops_at_first_read_error_witness :
    (analyze_file "b.txt" (Except.ok 9)
        (Except.ok (["ab".data].map Except.ok ++
          Except.error "bad utf8" :: [Except.ok "cd".data]))).stats =
      statsOfLines ["ab".data] 9 ∧
    (analyze_file "b.txt" (Except.ok 9)
        (Except.ok (["ab".data].map Except.ok ++
          Except.error "bad utf8" :: [Except.ok "cd".data]))).errors ≠ [] ∧
    analyze_file "b.txt" (Except.ok 9)
        (Except.ok (["ab".data].map Except.ok ++
          Except.error "bad utf8" :: [Except.ok "cd".data])) =
      analyze_file "b.txt" (Except.ok 9)
        (Except.ok (["ab".data].map Except.ok ++ [Except.error "bad utf8"])) :=
  C6_stops_at_first_read_error "b.txt" 9 ["ab".data] "bad utf8" [Except.ok "cd".data]

/-- Claim C7: analyzing a path the filesystem does not know yields a
non-empty error sequence (the metadata error and the open error) and
zero-valued statistics — zero words, zero lines, zero bytes and an empty
character histogram; `analyze_file` returns this record normally instead
of aborting. -/
theorem C7_nonexistent_path (fs : String → Option FsFile) (path : String)
    (h : fs path = none) :
    (analyzeFileFs fs path).errors ≠ [] ∧
    (analyzeFileFs fs path).stats =
      { word_count := 0, line_count := 0, char_frequencies := 0,
        size_bytes := 0 } := by
  simp [analyzeFileFs, h, analyze_file]

theorem C7_nonexistent_path_witness :
    (analyzeFileFs (fun _ => none) "missing.txt").errors ≠ [] ∧
    (analyzeFileFs (fun _ => none) "missing.txt").stats =
      { word_count := 0, line_count := 0, char_frequencies := 0,
        size_bytes := 0 } :=
  C7_nonexistent_path (fun _ => none) "missing.txt" rfl

/-- Drop one leading carriage return, if present. -/
def stripHeadCR : List Char → List Char
  | [] => []
  | c :: rest => if c = '\r' then rest else c :: rest

/-- Semantics of `BufRead::lines`, processing the raw content left to right
with `acc` the reversed characters of the line being read: at a newline
the accumulated line is emitted with a trailing carriage return stripped
(`lines` pops the trailing `\n`, then a trailing `\r` if one follows);
at end of input a nonempty final fragment is emitted as-is (no `\n` was
popped, so no `\r` is popped either). -/
def splitLinesGo : List Char → List Char → List (List Char)
  | [], acc => if acc = [] then [] else [acc.reverse]
  | c :: rest, acc =>
    if c = '\n' then (stripHeadCR acc).reverse :: splitLinesGo rest []
    else splitLinesGo rest (c :: acc)

/-- The sequence of lines `reader.lines()` yields for raw content. -/
def splitLines (content : List Char) : List (List Char) :=
  splitLinesGo content []

/-- Raw content with every line terminator (each `\n`, and the `\r` of
each `\r\n`) removed; every other character, including a `\r` not
followed by `\n`, is kept. -/
def removeTerminators : List Char → List Char
  | [] => []
  | [c] => if c = '\n' then [] else [c]
  | c :: c' :: rest =>
    if c = '\r' ∧ c' = '\n' then removeTerminators rest
    else if c = '\n' then removeTerminators (c' :: rest)
    else c :: removeTerminators (c' :: rest)

/-- Drop one trailing carriage return, if present. -/
def dropTrailCR (l : List Char) : List Char :=
  (stripHeadCR l.reverse).reverse

theorem stripHeadCR_append (as bs : List Char) (h : as ≠ []) :
    stripHeadCR (as ++ bs) = stripHeadCR as ++ bs := by
  cases as with
  | nil => exact absurd rfl h
  | cons a as' =>
    by_cases ha : a = '\r' <;> simp [stripHeadCR, ha]

theorem dropTrailCR_cons (c : Char) (l : List Char) (h : l ≠ []) :
    dropTrailCR (c :: l) = c :: dropTrailCR l := by
  have hrev : l.reverse ≠ [] := by simpa using h
  simp only [dropTrailCR, List.reverse_cons, stripHeadCR_append l.reverse [c] hrev,
    List.reverse_append]
  simp

theorem removeTerminators_no_newline (l : List Char) (h : '\n' ∉ l) :
    removeTerminators l = l := by
  induction l with
  | nil => rfl
  | cons c rest ih =>
    have hc : c ≠ '\n' := by
      intro hc
      exact h (by simp [hc])
    have hrest : '\n' ∉ rest := by
      intro hr
      exact h (by simp [hr])
    cases rest with
    | nil => simp [removeTerminators, hc]
    | cons c' rest' =>
      have hc' : c' ≠ '\n' := by
        intro hc'
        exact hrest (by simp [hc'])
      rw [removeTerminators]
      simp only [hc', and_false, if_false, hc, if_false]
      rw [ih hrest]

theorem removeTerminators_newline_cons (rest : List Char) :
    removeTerminators ('\n' :: rest) = removeTerminators rest := by
  cases rest with
  | nil => rfl
  | cons c' rest' =>
    rw [removeTerminators]
    simp

theorem removeTerminators_line_append (l : List Char) (rest : List Char)
    (h : '\n' ∉ l) :
    removeTerminators (l ++ '\n' :: rest) =
      dropTrailCR l ++ removeTerminators rest := by
  induction l with
  | nil =>
    simp only [List.nil_append]
    rw [removeTerminators_newline_cons]
    rfl
  | cons c l' ih =>
    have hc : c ≠ '\n' := by
      intro hc
      exact h (by simp [hc])
    have hl' : '\n' ∉ l' := by
      intro hr
      exact h (by simp [hr])
    cases l' with
    | nil =>
      by_cases hcr : c = '\r'
      · subst hcr
        rw [List.singleton_append, removeTerminators]
        simp [dropTrailCR, stripHeadCR]
      · rw [List.singleton_append, removeTerminators]
        simp only [hcr, false_and, if_false, hc, if_false]
        rw [removeTerminators_newline_cons]
        simp [dropTrailCR, stripHeadCR, hcr]
    | cons c' l'' =>
      have hc' : c' ≠ '\n' := by
        intro hc'
        exact hl' (by simp [hc'])
      have hne : (c' :: l'') ≠ [] := by simp
      rw [List.cons_append, List.cons_append, removeTerminators]
      simp only [hc', and_false, if_false, hc, if_false]
      rw [← List.cons_append, ih hl', dropTrailCR_cons c (c' :: l'') hne]
      simp

theorem splitLinesGo_flatten (cs : List Char) (acc : List Char)
    (h : '\n' ∉ acc) :
    (splitLinesGo cs acc).flatten = removeTerminators (acc.reverse ++ cs) := by
  induction cs generalizing acc with
  | nil =>
    by_cases hacc : acc = []
    · simp [splitLinesGo, hacc, removeTerminators]
    · have hrev : '\n' ∉ acc.reverse := by simpa using h
      simp [splitLinesGo, hacc, removeTerminators_no_newline acc.reverse hrev]
  | cons c rest ih =>
    by_cases hc : c = '\n'
    · subst hc
      have hrev : '\n' ∉ acc.reverse := by simpa using h
      rw [splitLinesGo]
      simp only [if_true, List.flatten_cons]
      rw [ih [] (by simp), removeTerminators_line_append acc.reverse rest hrev]
      simp [dropTrailCR]
    · have hacc' : '\n' ∉ c :: acc := by
        intro hmem
        rcases List.mem_cons.mp hmem with hmem | hmem
        · exact hc hmem.symm
        · exact h hmem
      rw [splitLinesGo]
      simp only [hc, if_false]
      rw [ih (c :: acc) hacc']
      simp

theorem splitLinesGo_lines_no_newline (cs : List Char) (acc : List Char)
    (h : '\n' ∉ acc) :
    ∀ l ∈ splitLinesGo cs acc, '\n' ∉ l := by
  induction cs generalizing acc with
  | nil =>
    intro l hl
    by_cases hacc : acc = []
    · simp [splitLinesGo, hacc] at hl
    · simp [splitLinesGo, hacc] at hl
      subst hl
      simpa using h
  | cons c rest ih =>
    intro l hl
    by_cases hc : c = '\n'
    · subst hc
      rw [splitLinesGo] at hl
      simp only [if_true, List.mem_cons] at hl
      rcases hl with hl | hl
      · subst hl
        intro hmem
        rw [List.mem_reverse] at hmem
        refine h ?_
        cases acc with
        | nil => simp [stripHeadCR] at hmem
        | cons a acc' =>
          by_cases ha : a = '\r'
          · simp only [stripHeadCR, if_pos ha] at hmem
            exact List.mem_cons_of_mem a hmem
          · simp only [stripHeadCR, if_neg ha] at hmem
            exact hmem
      · exact ih [] (by simp) l hl
    · rw [splitLinesGo] at hl
      simp only [hc, if_false] at hl
      refine ih (c :: acc) ?_ l hl
      intro hmem
      simp at hmem
      rcases hmem with hmem | hmem
      · exact hc hmem.symm
      · exact h hmem

/-- Claim C9: for a readable file with raw content `content`, the
character histogram counts exactly the characters of the content with
the line terminators (`\n`, and the `\r` of each `\r\n`) stripped; in
particular the histogram entry of `\n` is zero, while `line_count` still
counts every line `reader.lines()` yields, and no error is recorded. -/
theorem C9_terminators_stripped (path : String) (sz : Nat) (content : List Char) :
    (analyze_file path (Except.ok sz)
        (Except.ok ((splitLines content).map Except.ok))).stats.char_frequencies =
      (removeTerminators content : Multiset Char) ∧
    Multiset.count '\n'
      (analyze_file path (Except.ok sz)
        (Except.ok ((splitLines content).map Except.ok))).stats.char_frequencies = 0 ∧
    (analyze_file path (Except.ok sz)
        (Except.ok ((splitLines content).map Except.ok))).stats.line_count =
      (splitLines content).length ∧
    (analyze_file path (Except.ok sz)
        (Except.ok ((splitLines content).map Except.ok))).errors = [] := by
  have hfreq : (analyze_file path (Except.ok sz)
      (Except.ok ((splitLines content).map Except.ok))).stats.char_frequencies =
      ((splitLines content).flatten : Multiset Char) := by
    simp [analyze_file, processLines_ok]
  have hflat : (splitLines content).flatten = removeTerminators content := by
    simpa using splitLinesGo_flatten content [] (by simp)
  refine ⟨?_, ?_, ?_, ?_⟩
  · rw [hfreq, hflat]
  · rw [hfreq, Multiset.coe_count, List.count_eq_zero]
    intro hmem
    obtain ⟨l, hl, hml⟩ := List.mem_flatten.mp hmem
    exact splitLinesGo_lines_no_newline content [] (by simp) l hl hml
  · simp [analyze_file, processLines_ok]
  · simp [analyze_file, processLines_ok]

end FinalProject
